import Mathlib

set_option maxRecDepth 100000

/-
  Shallow embedding of the aof package (append-only file with CRC32-protected,
  cookie-framed chunks).  Byte streams are lists of naturals; every byte
  written by the code is < 256.  Machine integers are modelled as Nat with
  explicit reductions mod 2^16 / 2^32 where the Go code truncates.
-/

namespace Aof

/-- The magic cookie prefixing every AOF chunk (src constant magicCookie). -/
def magicCookie : Nat := 0x24716296

/-- Maximum size of the data in each chunk (src constant maxChunkSize). -/
def maxChunkSize : Nat := 1024

/-- Bytes of metadata per chunk: 4 cookie + 2 length + 4 checksum. -/
def chunkMetadataSize : Nat := 10

/-- Big-endian encoding of a 16-bit integer (src encodeU16); the Go code
converts the argument to uint16, hence the reductions mod 256. -/
def encodeU16 (n : Nat) : List Nat := [n / 2 ^ 8 % 2 ^ 8, n % 2 ^ 8]

/-- Big-endian encoding of a 32-bit integer (src encodeU32). -/
def encodeU32 (n : Nat) : List Nat :=
  [n / 2 ^ 24 % 2 ^ 8, n / 2 ^ 16 % 2 ^ 8, n / 2 ^ 8 % 2 ^ 8, n % 2 ^ 8]

/-- binary.BigEndian.Uint16 on two bytes. -/
def decodeU16 (b0 b1 : Nat) : Nat := b0 * 2 ^ 8 + b1

/-- binary.BigEndian.Uint32 on four bytes. -/
def decodeU32 (b0 b1 b2 b3 : Nat) : Nat :=
  ((b0 * 2 ^ 8 + b1) * 2 ^ 8 + b2) * 2 ^ 8 + b3

/-- Reversed IEEE polynomial used by CRC-32 (hash/crc32 with the IEEE table). -/
def crcPoly : Nat := 0xEDB88320

/-- One bit step of the CRC-32 shift register. -/
def crc32Bit (c : Nat) : Nat := if c % 2 = 1 then c / 2 ^^^ crcPoly else c / 2

/-- Absorb one byte into the CRC-32 state. -/
def crc32Byte (c b : Nat) : Nat := crc32Bit^[8] (c ^^^ b % 2 ^ 8)

/-- CRC-32 (IEEE) of a byte list, as computed by Go crc32.NewIEEE /
Sum32: initial state 0xFFFFFFFF, bytes absorbed in order, final
complement.  Incremental checksum.Write calls in the source amount to a
single fold over the concatenation of everything written. -/
def crc32 (bs : List Nat) : Nat := bs.foldl crc32Byte 0xFFFFFFFF ^^^ 0xFFFFFFFF

/-- The bytes covered by a chunk checksum: cookie, length, payload, in the
order the source feeds them to checksum.Write. -/
def chunkBody (b : List Nat) : List Nat :=
  encodeU32 magicCookie ++ encodeU16 b.length ++ b

/-- All bytes Append writes for payload b, in write order: cookie, length,
payload, checksum. -/
def chunkBytes (b : List Nat) : List Nat :=
  chunkBody b ++ encodeU32 (crc32 (chunkBody b))

/-- The only error Append itself produces (ErrChunkSizeLimitExceeded). -/
inductive AofError
  | chunkSizeLimitExceeded
  deriving DecidableEq

/-- Append (src AOF.Append): the state is the log byte stream; the result
pairs the returned error with the stream after the call.  An oversized
payload fails before anything is written. -/
def Append (stream b : List Nat) : Option AofError × List Nat :=
  if b.length > maxChunkSize then (some .chunkSizeLimitExceeded, stream)
  else (none, stream ++ chunkBytes b)

/-- isCookie (src): does the circular 4-byte window sync, read in stream
order starting at index sp mod 4, spell the cookie bytes? -/
def isCookie (sync : List Nat) (sp : Nat) : Bool :=
  sync.getD (sp % 4) 0 == 0x24 &&
  sync.getD ((sp + 1) % 4) 0 == 0x71 &&
  sync.getD ((sp + 2) % 4) 0 == 0x62 &&
  sync.getD ((sp + 3) % 4) 0 == 0x96

/-- io.ReadFull of n bytes at absolute position pos: none models the
EOF/ErrUnexpectedEOF outcome when fewer than n bytes remain. -/
def readAt (stream : List Nat) (pos n : Nat) : Option (List Nat) :=
  if pos + n ≤ stream.length then some ((stream.drop pos).take n) else none

/-- The sliding-window cookie scan of Lookup: sync is the circular window,
sp the window index, offset the stream position where the window starts,
and rest the bytes after the window (the unread part of the stream, i.e.
stream.drop (offset + 4)).  Returns the position of the cookie match, or
none when input is exhausted (EOF). -/
def seekCookieAux (rest sync : List Nat) (sp offset : Nat) : Option Nat :=
  if isCookie sync sp then some offset
  else
    match rest with
    | [] => none
    | c :: rest1 => seekCookieAux rest1 (sync.set (sp % 4) c) (sp + 1) (offset + 1)

/-- Modelled from the spec (SEEK_COOKIE, spec-level): the least position
p ≥ offset whose 4-byte slice equals the cookie, at any byte alignment;
used only to characterise the sliding-window scan. -/
def firstCookieAt (stream : List Nat) (offset : Nat) : Option Nat :=
  if offset + 4 ≤ stream.length then
    if (stream.drop offset).take 4 = encodeU32 magicCookie then some offset
    else firstCookieAt stream (offset + 1)
  else none
termination_by stream.length - offset
decreasing_by
  simp_wf
  omega

/-- Result of Lookup: a payload together with the offset of the next chunk,
or end of stream. -/
inductive LookupResult
  | eof
  | chunk (b : List Nat) (next : Nat)
  deriving DecidableEq

theorem seekCookieAux_bounds {rest sync : List Nat} {sp offset p : Nat}
    (h : seekCookieAux rest sync sp offset = some p) :
    offset ≤ p ∧ p ≤ offset + rest.length := by
  induction rest generalizing sync sp offset with
  | nil =>
    rw [seekCookieAux] at h
    by_cases hc : isCookie sync sp
    · simp [hc] at h
      omega
    · simp [hc] at h
  | cons c rest1 ih =>
    rw [seekCookieAux] at h
    by_cases hc : isCookie sync sp
    · simp [hc] at h
      omega
    · simp [hc] at h
      have := ih h
      simp only [List.length_cons]
      omega

theorem readAt_bounds {stream : List Nat} {pos n : Nat} {l : List Nat}
    (h : readAt stream pos n = some l) :
    pos + n ≤ stream.length ∧ l = (stream.drop pos).take n := by
  rw [readAt] at h
  by_cases hle : pos + n ≤ stream.length
  · simp [hle] at h
    exact ⟨hle, h.symm⟩
  · simp [hle] at h

/-- Lookup (src AOF.Lookup): scan from offset for the next valid chunk.
Each iteration seeks the next cookie, reads the length, checks the bound,
reads payload and stored checksum, and validates the CRC; on an oversized
length or a checksum mismatch it restarts one byte past the matched
cookie.  Failed reads are EOF. -/
def Lookup (stream : List Nat) (offset : Nat) : LookupResult :=
  match hs : readAt stream offset 4 with
  | none => .eof
  | some sync =>
    match hp : seekCookieAux (stream.drop (offset + 4)) sync 0 offset with
    | none => .eof
    | some p =>
      match readAt stream (p + 4) 2 with
      | none => .eof
      | some lenb =>
        let size := decodeU16 (lenb.getD 0 0) (lenb.getD 1 0)
        if size > maxChunkSize then
          Lookup stream (p + 1)
        else
          match readAt stream (p + 6) size with
          | none => .eof
          | some b =>
            match readAt stream (p + 6 + size) 4 with
            | none => .eof
            | some csb =>
              let stored :=
                decodeU32 (csb.getD 0 0) (csb.getD 1 0) (csb.getD 2 0) (csb.getD 3 0)
              if crc32 (encodeU32 magicCookie ++ encodeU16 size ++ b) = stored then
                .chunk b (p + chunkMetadataSize + b.length)
              else
                Lookup stream (p + 1)
termination_by stream.length - offset
decreasing_by
  all_goals
    have h1 := (readAt_bounds hs).1
    have h0 := (seekCookieAux_bounds hp).1
    have h2 := (seekCookieAux_bounds hp).2
    simp only [List.length_drop] at h2
    omega

/-- Lookup with explicit iteration fuel: same body as Lookup, returning
none when the fuel runs out.  Structural, so it computes by kernel
reduction; Lean requires the fuel, the Go loop has none. -/
def LookupFuel : Nat → List Nat → Nat → Option LookupResult
  | 0, _, _ => none
  | fuel + 1, stream, offset =>
    match readAt stream offset 4 with
    | none => some .eof
    | some sync =>
      match seekCookieAux (stream.drop (offset + 4)) sync 0 offset with
      | none => some .eof
      | some p =>
        match readAt stream (p + 4) 2 with
        | none => some .eof
        | some lenb =>
          let size := decodeU16 (lenb.getD 0 0) (lenb.getD 1 0)
          if size > maxChunkSize then
            LookupFuel fuel stream (p + 1)
          else
            match readAt stream (p + 6) size with
            | none => some .eof
            | some b =>
              match readAt stream (p + 6 + size) 4 with
              | none => some .eof
              | some csb =>
                let stored :=
                  decodeU32 (csb.getD 0 0) (csb.getD 1 0) (csb.getD 2 0) (csb.getD 3 0)
                if crc32 (encodeU32 magicCookie ++ encodeU16 size ++ b) = stored then
                  some (.chunk b (p + chunkMetadataSize + b.length))
                else
                  LookupFuel fuel stream (p + 1)

/-- Which file handle a Close call releases. -/
inductive CloseCall
  | closeRead
  | closeWrite
  deriving DecidableEq

/-- Close (src AOF.Close): rClose and wClose are the outcomes of closing the
read and write handles (none = success).  Returns the sequence of close
calls performed, in order, and the error reported to the caller. -/
def Close {ε : Type} (rClose wClose : Option ε) : List CloseCall × Option ε :=
  match rClose with
  | some e => ([.closeRead, .closeWrite], some e)
  | none => ([.closeRead, .closeWrite], wClose)

theorem encodeU16_length (n : Nat) : (encodeU16 n).length = 2 := rfl

theorem encodeU32_length (n : Nat) : (encodeU32 n).length = 4 := rfl

theorem decodeU16_encodeU16 (n : Nat) (h : n < 65536) :
    decodeU16 ((encodeU16 n).getD 0 0) ((encodeU16 n).getD 1 0) = n := by
  simp only [encodeU16, decodeU16, List.getD]
  simp
  omega

theorem decodeU32_encodeU32 (n : Nat) (h : n < 4294967296) :
    decodeU32 ((encodeU32 n).getD 0 0) ((encodeU32 n).getD 1 0)
      ((encodeU32 n).getD 2 0) ((encodeU32 n).getD 3 0) = n := by
  simp only [encodeU32, decodeU32, List.getD]
  simp
  omega

theorem crc32Bit_lt {c : Nat} (h : c < 2 ^ 32) : crc32Bit c < 2 ^ 32 := by
  rw [crc32Bit]
  split
  · exact Nat.xor_lt_two_pow (by omega) (by norm_num [crcPoly])
  · omega

theorem crc32Byte_lt (c b : Nat) (h : c < 2 ^ 32) : crc32Byte c b < 2 ^ 32 := by
  rw [crc32Byte]
  have h0 : c ^^^ b % 2 ^ 8 < 2 ^ 32 := by
    refine Nat.xor_lt_two_pow h ?_
    have := Nat.mod_lt b (show 0 < 2 ^ 8 by norm_num)
    omega
  clear h
  generalize c ^^^ b % 2 ^ 8 = x at h0
  induction (8 : Nat) generalizing x with
  | zero => simpa using h0
  | succ k ih =>
    rw [Function.iterate_succ_apply]
    exact ih _ (crc32Bit_lt h0)

theorem crc32_lt (bs : List Nat) : crc32 bs < 4294967296 := by
  have main : crc32 bs < 2 ^ 32 := by
    rw [crc32]
    have key : ∀ l c, c < 2 ^ 32 → List.foldl crc32Byte c l < 2 ^ 32 := by
      intro l
      induction l with
      | nil => intro c h; simpa using h
      | cons x xs ih => intro c h; exact ih _ (crc32Byte_lt _ _ h)
    exact Nat.xor_lt_two_pow (key bs _ (by norm_num)) (by norm_num)
  omega

theorem chunkBody_length (b : List Nat) :
    (chunkBody b).length = 6 + b.length := by
  simp [chunkBody, encodeU16, encodeU32]
  omega

theorem chunkBytes_length (b : List Nat) :
    (chunkBytes b).length = chunkMetadataSize + b.length := by
  simp [chunkBytes, chunkBody, chunkMetadataSize, encodeU16, encodeU32]
  omega

/-- With fuel at least the number of unscanned bytes plus one, the fueled
scanner completes and agrees with Lookup: the loop needs at most one
iteration per remaining byte, because every retry advances the scan
position. -/
theorem lookupFuel_eq (stream : List Nat) :
    ∀ fuel offset, 1 ≤ fuel → stream.length + 1 ≤ fuel + offset →
    LookupFuel fuel stream offset = some (Lookup stream offset) := by
  intro fuel
  induction fuel with
  | zero => intro offset h1 h2; omega
  | succ f ih =>
    intro offset h1 h2
    rw [Lookup, LookupFuel]
    cases hs : readAt stream offset 4 with
    | none => simp
    | some sync =>
      simp only []
      cases hp : seekCookieAux (stream.drop (offset + 4)) sync 0 offset with
      | none => simp
      | some p =>
        have hb1 := (readAt_bounds hs).1
        have hb2 := (seekCookieAux_bounds hp).1
        have hb3 := (seekCookieAux_bounds hp).2
        simp only [List.length_drop] at hb3
        simp only []
        cases hl : readAt stream (p + 4) 2 with
        | none => simp
        | some lenb =>
          simp only []
          by_cases hsz : decodeU16 (lenb.getD 0 0) (lenb.getD 1 0) > maxChunkSize
          · simp only [if_pos hsz]
            exact ih (p + 1) (by omega) (by omega)
          · simp only [if_neg hsz]
            cases hpay : readAt stream (p + 6) (decodeU16 (lenb.getD 0 0) (lenb.getD 1 0)) with
            | none => simp
            | some b =>
              simp only []
              cases hcs : readAt stream (p + 6 + decodeU16 (lenb.getD 0 0) (lenb.getD 1 0)) 4 with
              | none => simp
              | some csb =>
                simp only []
                by_cases hcrc : crc32 (encodeU32 magicCookie ++
                    encodeU16 (decodeU16 (lenb.getD 0 0) (lenb.getD 1 0)) ++ b) =
                    decodeU32 (csb.getD 0 0) (csb.getD 1 0) (csb.getD 2 0) (csb.getD 3 0)
                · simp only [if_pos hcrc]
                · simp only [if_neg hcrc]
                  exact ih (p + 1) (by omega) (by omega)

theorem drop_of_drop {stream l : List Nat} {offset : Nat}
    (hd : stream.drop offset = l) (k : Nat) :
    stream.drop (offset + k) = l.drop k := by
  rw [← List.drop_drop, hd]

theorem readAt_of_drop {stream l : List Nat} {offset : Nat}
    (hd : stream.drop offset = l) {k n : Nat} (hn : 0 < n)
    (hkn : k + n ≤ l.length) :
    readAt stream (offset + k) n = some ((l.drop k).take n) := by
  have hlen : stream.length - offset = l.length := by
    rw [← hd, List.length_drop]
  have hoff : offset < stream.length := by
    rcases Nat.lt_or_ge offset stream.length with h | h
    · exact h
    · exfalso
      have : stream.drop offset = [] := List.drop_eq_nil_of_le h
      rw [this] at hd
      simp [← hd] at hkn
      omega
  rw [readAt, if_pos (by omega), drop_of_drop hd]

/-- A cookie-fronted window makes the scan stop immediately at the current
offset. -/
theorem seekCookieAux_cookie (rest : List Nat) (offset : Nat) :
    seekCookieAux rest (encodeU32 magicCookie) 0 offset = some offset := by
  rw [seekCookieAux.eq_def, if_pos (show isCookie (encodeU32 magicCookie) 0 = true by decide)]

theorem readAt_here {stream l : List Nat} {offset : Nat}
    (hd : stream.drop offset = l) (hoff : offset ≤ stream.length)
    {n : Nat} (hn : n ≤ l.length) :
    readAt stream offset n = some (l.take n) := by
  have hlen : stream.length - offset = l.length := by
    rw [← hd, List.length_drop]
  rw [readAt, if_pos (by omega), hd]

/-- Lookup finds a well-formed chunk lying at exactly the requested offset
and returns its payload and the offset just past its checksum. -/
theorem lookup_chunk {stream : List Nat} {offset : Nat} {b rest : List Nat}
    (hb : b.length ≤ maxChunkSize)
    (hd : stream.drop offset = chunkBytes b ++ rest) :
    Lookup stream offset = .chunk b (offset + chunkMetadataSize + b.length) := by
  have hd0 : stream.drop offset =
      encodeU32 magicCookie ++ (encodeU16 b.length ++
        (b ++ (encodeU32 (crc32 (chunkBody b)) ++ rest))) := by
    rw [hd]
    simp [chunkBytes, chunkBody]
  have hoff : offset ≤ stream.length ∧
      stream.length = offset + 10 + b.length + rest.length := by
    have hlen := congrArg List.length hd
    rw [List.length_drop, List.length_append, chunkBytes_length] at hlen
    have hcm : chunkMetadataSize = 10 := rfl
    constructor <;> omega
  have hd4 : stream.drop (offset + 4) =
      encodeU16 b.length ++ (b ++ (encodeU32 (crc32 (chunkBody b)) ++ rest)) := by
    rw [drop_of_drop hd0 4, List.drop_left' (encodeU32_length _)]
  have hd6 : stream.drop (offset + 4 + 2) =
      b ++ (encodeU32 (crc32 (chunkBody b)) ++ rest) := by
    rw [drop_of_drop hd4 2, List.drop_left' (encodeU16_length _)]
  have hd6b : stream.drop (offset + 4 + 2 + b.length) =
      encodeU32 (crc32 (chunkBody b)) ++ rest := by
    rw [drop_of_drop hd6 b.length, List.drop_left]
  have h1 : readAt stream offset 4 = some (encodeU32 magicCookie) := by
    rw [readAt_here hd0 hoff.1
        (by simp [encodeU32_length, encodeU16_length]),
      List.take_left' (encodeU32_length _)]
  have h2 : readAt stream (offset + 4) 2 = some (encodeU16 b.length) := by
    rw [readAt_here hd4 (by omega)
        (by simp [encodeU32_length, encodeU16_length]),
      List.take_left' (encodeU16_length _)]
  have h3 : readAt stream (offset + 6) b.length = some b := by
    have heq : offset + 6 = offset + 4 + 2 := by omega
    rw [heq, readAt_here hd6 (by omega) (by simp), List.take_left]
  have h4 : readAt stream (offset + 6 + b.length) 4 =
      some (encodeU32 (crc32 (chunkBody b))) := by
    have heq : offset + 6 + b.length = offset + 4 + 2 + b.length := by omega
    rw [heq, readAt_here hd6b (by omega)
        (by simp [encodeU32_length]),
      List.take_left' (encodeU32_length _)]
  have hsize : decodeU16 ((encodeU16 b.length).getD 0 0)
      ((encodeU16 b.length).getD 1 0) = b.length :=
    decodeU16_encodeU16 b.length
      (by have hm : maxChunkSize = 1024 := rfl; omega)
  have hstored : decodeU32 ((encodeU32 (crc32 (chunkBody b))).getD 0 0)
      ((encodeU32 (crc32 (chunkBody b))).getD 1 0)
      ((encodeU32 (crc32 (chunkBody b))).getD 2 0)
      ((encodeU32 (crc32 (chunkBody b))).getD 3 0) = crc32 (chunkBody b) :=
    decodeU32_encodeU32 _ (crc32_lt _)
  rw [Lookup]
  cases hs : readAt stream offset 4 with
  | none => rw [h1] at hs; cases hs
  | some sync =>
    rw [h1] at hs
    injection hs with hsync
    subst hsync
    simp only []
    cases hp : seekCookieAux (stream.drop (offset + 4)) (encodeU32 magicCookie) 0 offset with
    | none => rw [seekCookieAux_cookie] at hp; cases hp
    | some p =>
      rw [seekCookieAux_cookie] at hp
      injection hp with hpeq
      subst hpeq
      simp only []
      cases hl : readAt stream (offset + 4) 2 with
      | none => rw [h2] at hl; cases hl
      | some lenb =>
        rw [h2] at hl
        injection hl with hlenb
        subst hlenb
        simp only [hsize]
        rw [if_neg (by omega)]
        cases hpay : readAt stream (offset + 6) b.length with
        | none => rw [h3] at hpay; cases hpay
        | some pb =>
          rw [h3] at hpay
          injection hpay with hpb
          subst hpb
          simp only []
          cases hcs : readAt stream (offset + 6 + b.length) 4 with
          | none => rw [h4] at hcs; cases hcs
          | some csb =>
            rw [h4] at hcs
            injection hcs with hcsb
            subst hcsb
            simp only [hstored]
            rw [if_pos (show crc32 (encodeU32 magicCookie ++ encodeU16 b.length ++ b) =
              crc32 (chunkBody b) from rfl)]

/-- Evaluate Lookup through the fueled scanner: stream.length + 1 iterations
always suffice. -/
theorem lookup_eval {s : List Nat} {offset : Nat} {r : LookupResult}
    (h : LookupFuel (s.length + 1) s offset = some r) : Lookup s offset = r := by
  have h2 := lookupFuel_eq s (s.length + 1) offset (by omega) (by omega)
  rw [h] at h2
  exact (Option.some.inj h2).symm

/-- On a checksum mismatch, Lookup reports no error: it rescans from one
byte past the position where the matched cookie began. -/
theorem lookup_restart_mismatch {stream sync lenb b csb : List Nat}
    {offset p : Nat}
    (hs : readAt stream offset 4 = some sync)
    (hp : seekCookieAux (stream.drop (offset + 4)) sync 0 offset = some p)
    (hl : readAt stream (p + 4) 2 = some lenb)
    (hsz : decodeU16 (lenb.getD 0 0) (lenb.getD 1 0) ≤ maxChunkSize)
    (hpay : readAt stream (p + 6) (decodeU16 (lenb.getD 0 0) (lenb.getD 1 0)) = some b)
    (hcs : readAt stream (p + 6 + decodeU16 (lenb.getD 0 0) (lenb.getD 1 0)) 4 = some csb)
    (hcrc : crc32 (encodeU32 magicCookie ++
        encodeU16 (decodeU16 (lenb.getD 0 0) (lenb.getD 1 0)) ++ b) ≠
      decodeU32 (csb.getD 0 0) (csb.getD 1 0) (csb.getD 2 0) (csb.getD 3 0)) :
    Lookup stream offset = Lookup stream (p + 1) := by
  have hL : 4 ≤ stream.length := by
    have := (readAt_bounds hs).1
    omega
  have h1 := lookupFuel_eq stream (stream.length + 1) offset (by omega) (by omega)
  have hstep : LookupFuel (stream.length + 1) stream offset =
      LookupFuel stream.length stream (p + 1) := by
    rw [LookupFuel]
    simp only [hs, hp, hl]
    rw [if_neg (by omega)]
    simp only [hpay, hcs]
    rw [if_neg hcrc]
  have h2 := lookupFuel_eq stream stream.length (p + 1) (by omega) (by omega)
  rw [hstep, h2] at h1
  exact (Option.some.inj h1).symm

/-- On an oversized length field, Lookup treats the cookie match as spurious
and rescans from one byte past where the cookie began, without reading the
payload. -/
theorem lookup_restart_oversize {stream sync lenb : List Nat} {offset p : Nat}
    (hs : readAt stream offset 4 = some sync)
    (hp : seekCookieAux (stream.drop (offset + 4)) sync 0 offset = some p)
    (hl : readAt stream (p + 4) 2 = some lenb)
    (hsz : maxChunkSize < decodeU16 (lenb.getD 0 0) (lenb.getD 1 0)) :
    Lookup stream offset = Lookup stream (p + 1) := by
  have hL : 4 ≤ stream.length := by
    have := (readAt_bounds hs).1
    omega
  have h1 := lookupFuel_eq stream (stream.length + 1) offset (by omega) (by omega)
  have hstep : LookupFuel (stream.length + 1) stream offset =
      LookupFuel stream.length stream (p + 1) := by
    rw [LookupFuel]
    simp only [hs, hp, hl]
    rw [if_pos (by omega)]
  have h2 := lookupFuel_eq stream stream.length (p + 1) (by omega) (by omega)
  rw [hstep, h2] at h1
  exact (Option.some.inj h1).symm

/-- Inversion on a successful fueled scan: the payload was read at some
cookie position at or after the request, passed the bounds check, and the
next offset is that position plus metadata plus payload length. -/
theorem lookupFuel_success (stream : List Nat) :
    ∀ fuel offset b nxt, LookupFuel fuel stream offset = some (.chunk b nxt) →
    ∃ p, offset ≤ p ∧ b.length ≤ maxChunkSize ∧
      nxt = p + chunkMetadataSize + b.length := by
  intro fuel
  induction fuel with
  | zero => intro offset b nxt h; cases h
  | succ f ih =>
    intro offset b nxt h
    rw [LookupFuel] at h
    cases hs : readAt stream offset 4 with
    | none => rw [hs] at h; cases h
    | some sync =>
      rw [hs] at h
      simp only [] at h
      cases hp : seekCookieAux (stream.drop (offset + 4)) sync 0 offset with
      | none => rw [hp] at h; cases h
      | some p =>
        rw [hp] at h
        have hople := (seekCookieAux_bounds hp).1
        simp only [] at h
        cases hl : readAt stream (p + 4) 2 with
        | none => rw [hl] at h; cases h
        | some lenb =>
          rw [hl] at h
          simp only [] at h
          by_cases hsz : decodeU16 (lenb.getD 0 0) (lenb.getD 1 0) > maxChunkSize
          · rw [if_pos hsz] at h
            obtain ⟨q, hq1, hq2, hq3⟩ := ih (p + 1) b nxt h
            exact ⟨q, by omega, hq2, hq3⟩
          · rw [if_neg hsz] at h
            cases hpay : readAt stream (p + 6) (decodeU16 (lenb.getD 0 0) (lenb.getD 1 0)) with
            | none => rw [hpay] at h; cases h
            | some pb =>
              rw [hpay] at h
              simp only [] at h
              cases hcs : readAt stream (p + 6 + decodeU16 (lenb.getD 0 0) (lenb.getD 1 0)) 4 with
              | none => rw [hcs] at h; cases h
              | some csb =>
                rw [hcs] at h
                simp only [] at h
                by_cases hcrc : crc32 (encodeU32 magicCookie ++
                    encodeU16 (decodeU16 (lenb.getD 0 0) (lenb.getD 1 0)) ++ pb) =
                    decodeU32 (csb.getD 0 0) (csb.getD 1 0) (csb.getD 2 0) (csb.getD 3 0)
                · rw [if_pos hcrc] at h
                  injection h with h
                  injection h with hbe hne
                  subst hbe
                  have hlen : pb.length = decodeU16 (lenb.getD 0 0) (lenb.getD 1 0) := by
                    have hb1 := (readAt_bounds hpay).1
                    have hb2 := (readAt_bounds hpay).2
                    rw [hb2, List.length_take, List.length_drop]
                    omega
                  exact ⟨p, hople, by omega, by omega⟩
                · rw [if_neg hcrc] at h
                  obtain ⟨q, hq1, hq2, hq3⟩ := ih (p + 1) b nxt h
                  exact ⟨q, by omega, hq2, hq3⟩

/-- Inversion transferred to Lookup itself. -/
theorem lookup_success {stream : List Nat} {offset : Nat} {b : List Nat} {nxt : Nat}
    (h : Lookup stream offset = .chunk b nxt) :
    ∃ p, offset ≤ p ∧ b.length ≤ maxChunkSize ∧
      nxt = p + chunkMetadataSize + b.length := by
  have h1 := lookupFuel_eq stream (stream.length + 1) offset (by omega) (by omega)
  rw [h] at h1
  exact lookupFuel_success stream (stream.length + 1) offset b nxt h1

theorem drop_cons_getD {s : List Nat} {n m : Nat} (h : n < s.length)
    (hm : m = n + 1) : s.drop n = s.getD n 0 :: s.drop m := by
  subst hm
  rw [List.drop_eq_getElem_cons h, List.getD_eq_getElem _ _ h]

theorem take4_drop {stream : List Nat} {o : Nat} (h : o + 4 ≤ stream.length) :
    (stream.drop o).take 4 = [stream.getD o 0, stream.getD (o + 1) 0,
      stream.getD (o + 2) 0, stream.getD (o + 3) 0] := by
  rw [drop_cons_getD (show o < stream.length by omega) rfl,
    drop_cons_getD (show o + 1 < stream.length by omega)
      (show o + 2 = o + 1 + 1 by omega),
    drop_cons_getD (show o + 2 < stream.length by omega)
      (show o + 3 = o + 2 + 1 by omega),
    drop_cons_getD (show o + 3 < stream.length by omega)
      (show o + 4 = o + 3 + 1 by omega)]
  simp

/-- Under the window invariant, the circular-buffer cookie test of isCookie
is exactly a match of the 4-byte slice at the current position. -/
theorem isCookie_iff_slice {stream sync : List Nat} {sp offset : Nat}
    (hlen : sync.length = 4)
    (hw : ∀ i, i < 4 → sync.getD ((sp + i) % 4) 0 = stream.getD (offset + i) 0)
    (h4 : offset + 4 ≤ stream.length) :
    isCookie sync sp = true ↔
      (stream.drop offset).take 4 = encodeU32 magicCookie := by
  have h0 := hw 0 (by omega)
  have h1 := hw 1 (by omega)
  have h2 := hw 2 (by omega)
  have h3 := hw 3 (by omega)
  rw [show (sp + 0) % 4 = sp % 4 from by omega, Nat.add_zero] at h0
  rw [take4_drop h4, isCookie]
  simp only [Bool.and_eq_true, beq_iff_eq, h0, h1, h2, h3]
  have hck : encodeU32 magicCookie = [0x24, 0x71, 0x62, 0x96] := rfl
  rw [hck]
  simp only [List.cons.injEq, and_true]
  tauto

/-- The sliding-window scan computes the first cookie position: under the
window invariant, seekCookieAux agrees with the spec-level first-match
function firstCookieAt, which tries every byte position in turn. -/
theorem seekCookieAux_eq_firstCookieAt (stream : List Nat) :
    ∀ rest sync sp offset, rest = stream.drop (offset + 4) →
    sync.length = 4 →
    (∀ i, i < 4 → sync.getD ((sp + i) % 4) 0 = stream.getD (offset + i) 0) →
    offset + 4 ≤ stream.length →
    seekCookieAux rest sync sp offset = firstCookieAt stream offset := by
  intro rest
  induction rest with
  | nil =>
    intro sync sp offset hrest hlen hw h4
    have hL : stream.length = offset + 4 := by
      have hl2 := congrArg List.length hrest
      simp only [List.length_nil, List.length_drop] at hl2
      omega
    rw [seekCookieAux.eq_def, firstCookieAt, if_pos h4]
    by_cases hc : isCookie sync sp = true
    · rw [if_pos hc, if_pos ((isCookie_iff_slice hlen hw h4).mp hc)]
    · rw [if_neg hc, if_neg (fun hsl => hc ((isCookie_iff_slice hlen hw h4).mpr hsl))]
      rw [firstCookieAt, if_neg (by omega)]
  | cons c rest1 ih =>
    intro sync sp offset hrest hlen hw h4
    have hlt : offset + 4 < stream.length := by
      have hl2 := congrArg List.length hrest
      simp only [List.length_cons, List.length_drop] at hl2
      omega
    have hc4 : c = stream.getD (offset + 4) 0 ∧ rest1 = stream.drop (offset + 5) := by
      rw [List.drop_eq_getElem_cons hlt] at hrest
      injection hrest with hch hrt
      refine ⟨?_, ?_⟩
      · rw [hch, List.getD_eq_getElem _ _ hlt]
      · rw [hrt, show offset + 4 + 1 = offset + 5 from by omega]
    rw [seekCookieAux, firstCookieAt, if_pos h4]
    by_cases hc : isCookie sync sp = true
    · rw [if_pos hc, if_pos ((isCookie_iff_slice hlen hw h4).mp hc)]
    · rw [if_neg hc, if_neg (fun hsl => hc ((isCookie_iff_slice hlen hw h4).mpr hsl))]
      refine ih (sync.set (sp % 4) c) (sp + 1) (offset + 1) ?_ ?_ ?_ (by omega)
      · rw [hc4.2, show offset + 1 + 4 = offset + 5 from by omega]
      · rw [List.length_set, hlen]
      · intro i hi
        by_cases h3i : i = 3
        · subst h3i
          rw [show (sp + 1 + 3) % 4 = sp % 4 from by omega,
            show offset + 1 + 3 = offset + 4 from by omega]
          rw [List.getD_eq_getElem?_getD,
            List.getElem?_set_self (by rw [hlen]; omega)]
          simp only [Option.getD_some]
          exact hc4.1
        · have hne : sp % 4 ≠ (sp + 1 + i) % 4 := by omega
          rw [List.getD_eq_getElem?_getD, List.getElem?_set_ne hne,
            ← List.getD_eq_getElem?_getD]
          have hwi := hw (i + 1) (by omega)
          rw [show sp + (i + 1) = sp + 1 + i from by omega,
            show offset + (i + 1) = offset + 1 + i from by omega] at hwi
          exact hwi

/-- The byte stream produced by appending each payload of bs in order. -/
def chunksConcat (bs : List (List Nat)) : List Nat :=
  (bs.map chunkBytes).flatten

/-- Append every payload of bs in order, threading the log stream. -/
def appendAll (stream : List Nat) (bs : List (List Nat)) : List Nat :=
  bs.foldl (fun s b => (Append s b).2) stream

/-- Repeatedly call Lookup, n times, each time continuing from the offset
the previous call returned; collects the (payload, next offset) pairs and
stops early at end of stream. -/
def replay (stream : List Nat) : Nat → Nat → List (List Nat × Nat)
  | _, 0 => []
  | offset, n + 1 =>
    match Lookup stream offset with
    | .eof => []
    | .chunk b nxt => (b, nxt) :: replay stream nxt n

/-- The chained (payload, next offset) pairs the spec predicts: each next
offset is the previous offset plus 10 plus the returned payload length. -/
def expectedChunks (offset : Nat) : List (List Nat) → List (List Nat × Nat)
  | [] => []
  | b :: bs => (b, offset + chunkMetadataSize + b.length) ::
      expectedChunks (offset + chunkMetadataSize + b.length) bs

theorem appendAll_ok (bs : List (List Nat)) :
    ∀ stream, (∀ b ∈ bs, b.length ≤ maxChunkSize) →
    appendAll stream bs = stream ++ chunksConcat bs := by
  induction bs with
  | nil => intro stream h; simp [appendAll, chunksConcat]
  | cons b bs ih =>
    intro stream h
    have hb : b.length ≤ maxChunkSize := h b (by simp)
    have hstep : (Append stream b).2 = stream ++ chunkBytes b := by
      rw [Append, if_neg (by omega)]
    show appendAll (Append stream b).2 bs = _
    rw [hstep, ih _ (fun x hx => h x (by simp [hx]))]
    simp [chunksConcat]

theorem replay_chunks (bs : List (List Nat)) :
    ∀ stream offset, (∀ b ∈ bs, b.length ≤ maxChunkSize) →
    stream.drop offset = chunksConcat bs →
    replay stream offset bs.length = expectedChunks offset bs := by
  induction bs with
  | nil => intro stream offset h hd; rfl
  | cons b bs ih =>
    intro stream offset h hd
    have hb : b.length ≤ maxChunkSize := h b (by simp)
    have hd1 : stream.drop offset = chunkBytes b ++ chunksConcat bs := by
      rw [hd, chunksConcat, List.map_cons, List.flatten_cons]
      rfl
    have hlk := lookup_chunk hb hd1
    have hd2 : stream.drop (offset + chunkMetadataSize + b.length) =
        chunksConcat bs := by
      rw [show offset + chunkMetadataSize + b.length =
          offset + (chunkMetadataSize + b.length) from by omega,
        drop_of_drop hd1 (chunkMetadataSize + b.length),
        List.drop_left' (chunkBytes_length b)]
    show replay stream offset (bs.length + 1) = _
    rw [replay, hlk]
    simp only []
    rw [expectedChunks, ih _ _ (fun x hx => h x (by simp [hx])) hd2]

/-- Corruption of a single byte of a stream: the byte at index i has one
bit flipped. -/
def corruptByteAt (s : List Nat) (i : Nat) : List Nat :=
  s.set i (s.getD i 0 ^^^ 1)

/-- Claim C1: appending payloads b1, ..., bn, each of length at most 1024,
to an empty log and then repeatedly calling Lookup with the previously
returned offset starting at 0 returns b1, ..., bn in order, and each
returned next offset equals the previous offset plus 10 plus the length of
the returned payload. -/
theorem C1_round_trip_chaining (bs : List (List Nat))
    (h : ∀ b ∈ bs, b.length ≤ maxChunkSize) :
    replay (appendAll [] bs) 0 bs.length = expectedChunks 0 bs := by
  have ha := appendAll_ok bs [] h
  rw [List.nil_append] at ha
  rw [ha]
  exact replay_chunks bs _ 0 h (by simp)

theorem C1_round_trip_chaining_witness :
    (∀ b ∈ [[1, 2, 3], [4]], b.length ≤ maxChunkSize) ∧
    replay (appendAll [] [[1, 2, 3], [4]]) 0 2 =
      expectedChunks 0 [[1, 2, 3], [4]] :=
  ⟨by decide, C1_round_trip_chaining [[1, 2, 3], [4]] (by decide)⟩

/-- Claim C2: a checksum mismatch never surfaces an error: Lookup restarts
the scan one byte past the position where the matched cookie began.  With
two appended chunks and one byte of the first chunk's stored checksum
corrupted, Lookup 0 returns the second chunk's payload and correct next
offset; with a single corrupted chunk and nothing following, Lookup 0
reports end of stream. -/
theorem C2_checksum_mismatch_skip :
    (∀ (stream sync lenb b csb : List Nat) (offset p : Nat),
      readAt stream offset 4 = some sync →
      seekCookieAux (stream.drop (offset + 4)) sync 0 offset = some p →
      readAt stream (p + 4) 2 = some lenb →
      decodeU16 (lenb.getD 0 0) (lenb.getD 1 0) ≤ maxChunkSize →
      readAt stream (p + 6) (decodeU16 (lenb.getD 0 0) (lenb.getD 1 0)) = some b →
      readAt stream (p + 6 + decodeU16 (lenb.getD 0 0) (lenb.getD 1 0)) 4 = some csb →
      crc32 (encodeU32 magicCookie ++
          encodeU16 (decodeU16 (lenb.getD 0 0) (lenb.getD 1 0)) ++ b) ≠
        decodeU32 (csb.getD 0 0) (csb.getD 1 0) (csb.getD 2 0) (csb.getD 3 0) →
      Lookup stream offset = Lookup stream (p + 1)) ∧
    Lookup (corruptByteAt (chunkBytes [1]) 7 ++ chunkBytes [2]) 0 =
      .chunk [2] 22 ∧
    Lookup (corruptByteAt (chunkBytes [1]) 7) 0 = .eof := by
  refine ⟨?_, lookup_eval (by decide), lookup_eval (by decide)⟩
  intro stream sync lenb b csb offset p hs hp hl hsz hpay hcs hcrc
  exact lookup_restart_mismatch hs hp hl hsz hpay hcs hcrc

theorem C2_checksum_mismatch_skip_witness :
    (readAt (corruptByteAt (chunkBytes [1]) 7) 0 4 =
        some [0x24, 0x71, 0x62, 0x96] ∧
      seekCookieAux ((corruptByteAt (chunkBytes [1]) 7).drop 4)
        [0x24, 0x71, 0x62, 0x96] 0 0 = some 0 ∧
      readAt (corruptByteAt (chunkBytes [1]) 7) 4 2 = some [0, 1] ∧
      decodeU16 0 1 ≤ maxChunkSize ∧
      readAt (corruptByteAt (chunkBytes [1]) 7) 6 1 = some [1] ∧
      readAt (corruptByteAt (chunkBytes [1]) 7) 7 4 = some [114, 37, 135, 23] ∧
      crc32 (encodeU32 magicCookie ++ encodeU16 1 ++ [1]) ≠
        decodeU32 114 37 135 23) ∧
    Lookup (corruptByteAt (chunkBytes [1]) 7) 0 =
      Lookup (corruptByteAt (chunkBytes [1]) 7) 1 := by
  refine ⟨⟨by decide, by decide, by decide, by decide, by decide, by decide,
    by decide⟩, ?_⟩
  have h := C2_checksum_mismatch_skip.1 (corruptByteAt (chunkBytes [1]) 7)
    [0x24, 0x71, 0x62, 0x96] [0, 1] [1] [114, 37, 135, 23] 0 0
    (by decide) (by decide) (by decide) (by decide) (by decide) (by decide)
    (by decide)
  exact h

/-- Claim C3: the sliding-window scan matches a cookie starting at any byte
position, not only 4-byte-aligned ones: under the circular-window
invariant it agrees with the spec-level byte-by-byte first-match scan, and
for a log holding the first 7 bytes of a valid 14-byte chunk followed by a
second complete chunk, Lookup 0 skips the truncated remnant and returns
the second chunk's payload with the offset just past its checksum. -/
theorem C3_unaligned_cookie_scan :
    (∀ (stream sync : List Nat) (sp offset : Nat),
      sync.length = 4 →
      (∀ i, i < 4 → sync.getD ((sp + i) % 4) 0 = stream.getD (offset + i) 0) →
      offset + 4 ≤ stream.length →
      seekCookieAux (stream.drop (offset + 4)) sync sp offset =
        firstCookieAt stream offset) ∧
    Lookup ((chunkBytes [9, 10, 11, 12]).take 7 ++ chunkBytes [5, 6, 7, 8]) 0 =
      .chunk [5, 6, 7, 8] 21 := by
  refine ⟨?_, lookup_eval (by decide)⟩
  intro stream sync sp offset h1 h2 h3
  exact seekCookieAux_eq_firstCookieAt stream _ sync sp offset rfl h1 h2 h3

theorem C3_unaligned_cookie_scan_witness :
    (([0, 0x24, 0x71, 0x62] : List Nat).length = 4 ∧
      (∀ i, i < 4 → ([0, 0x24, 0x71, 0x62] : List Nat).getD ((0 + i) % 4) 0 =
        ([0, 0x24, 0x71, 0x62, 0x96] : List Nat).getD (0 + i) 0) ∧
      0 + 4 ≤ ([0, 0x24, 0x71, 0x62, 0x96] : List Nat).length) ∧
    seekCookieAux (([0, 0x24, 0x71, 0x62, 0x96] : List Nat).drop (0 + 4))
        [0, 0x24, 0x71, 0x62] 0 0 =
      firstCookieAt [0, 0x24, 0x71, 0x62, 0x96] 0 :=
  ⟨⟨by decide, by decide, by decide⟩,
    C3_unaligned_cookie_scan.1 [0, 0x24, 0x71, 0x62, 0x96] [0, 0x24, 0x71, 0x62]
      0 0 (by decide) (by decide) (by decide)⟩

/-- Claim C4: for a payload of length at most 1024, Append writes exactly,
in order, the 4-byte big-endian cookie, the 2-byte big-endian length, the
payload, and the 4-byte big-endian CRC-32 over cookie, length and payload,
at the end of the stream: 10 + len(b) bytes in total. -/
theorem C4_append_wire_format (stream b : List Nat)
    (hb : b.length ≤ maxChunkSize) :
    Append stream b = (none, stream ++
      (encodeU32 magicCookie ++ (encodeU16 b.length ++ (b ++
        encodeU32 (crc32 (encodeU32 magicCookie ++ encodeU16 b.length ++ b)))))) ∧
    (chunkBytes b).length = 10 + b.length := by
  constructor
  · rw [Append, if_neg (by omega)]
    simp [chunkBytes, chunkBody]
  · rw [chunkBytes_length]
    rfl

theorem C4_append_wire_format_witness :
    ([7].length ≤ maxChunkSize) ∧
    (Append [9] [7] = (none, [9] ++
      (encodeU32 magicCookie ++ (encodeU16 [7].length ++ ([7] ++
        encodeU32 (crc32 (encodeU32 magicCookie ++ encodeU16 [7].length ++ [7])))))) ∧
    (chunkBytes [7]).length = 10 + [7].length) :=
  ⟨by decide, C4_append_wire_format [9] [7] (by decide)⟩

/-- Claim C5: an oversized payload makes Append fail with the size-limit
error before any write: the stream is unchanged, and on an empty log a
subsequent Lookup 0 finds nothing. -/
theorem C5_size_limit_no_write (stream b : List Nat)
    (hb : maxChunkSize < b.length) :
    Append stream b = (some .chunkSizeLimitExceeded, stream) ∧
    Lookup (Append [] b).2 0 = .eof := by
  have h1 : ∀ s : List Nat, Append s b = (some .chunkSizeLimitExceeded, s) := by
    intro s
    rw [Append, if_pos (by omega)]
  refine ⟨h1 stream, ?_⟩
  rw [h1 []]
  exact lookup_eval (by decide)

theorem C5_size_limit_no_write_witness :
    (maxChunkSize < (List.replicate 1025 0).length) ∧
    (Append [3] (List.replicate 1025 0) = (some .chunkSizeLimitExceeded, [3]) ∧
      Lookup (Append [] (List.replicate 1025 0)).2 0 = .eof) :=
  ⟨by simp [maxChunkSize], C5_size_limit_no_write [3] _ (by simp [maxChunkSize])⟩

/-- Claim C6: a length field above 1024 after a cookie match makes the
scanner treat the match as spurious: without reading any payload it
advances the search one byte past the matched cookie position and rescans
from there. -/
theorem C6_oversized_length_spurious
    (stream sync lenb : List Nat) (offset p : Nat)
    (hs : readAt stream offset 4 = some sync)
    (hp : seekCookieAux (stream.drop (offset + 4)) sync 0 offset = some p)
    (hl : readAt stream (p + 4) 2 = some lenb)
    (hsz : maxChunkSize < decodeU16 (lenb.getD 0 0) (lenb.getD 1 0)) :
    Lookup stream offset = Lookup stream (p + 1) :=
  lookup_restart_oversize hs hp hl hsz

theorem C6_oversized_length_spurious_witness :
    (readAt [0x24, 0x71, 0x62, 0x96, 0xFF, 0xFF] 0 4 =
        some [0x24, 0x71, 0x62, 0x96] ∧
      seekCookieAux (([0x24, 0x71, 0x62, 0x96, 0xFF, 0xFF] : List Nat).drop 4)
        [0x24, 0x71, 0x62, 0x96] 0 0 = some 0 ∧
      readAt [0x24, 0x71, 0x62, 0x96, 0xFF, 0xFF] 4 2 = some [0xFF, 0xFF] ∧
      maxChunkSize < decodeU16 0xFF 0xFF) ∧
    Lookup [0x24, 0x71, 0x62, 0x96, 0xFF, 0xFF] 0 =
      Lookup [0x24, 0x71, 0x62, 0x96, 0xFF, 0xFF] 1 :=
  ⟨⟨by decide, by decide, by decide, by decide⟩,
    C6_oversized_length_spurious [0x24, 0x71, 0x62, 0x96, 0xFF, 0xFF]
      [0x24, 0x71, 0x62, 0x96] [0xFF, 0xFF] 0 0
      (by decide) (by decide) (by decide) (by decide)⟩

/-- Claim C7: Lookup terminates on every finite stream and offset: since
every failure path advances the scan by at least one byte, the loop
completes within stream.length + 1 iterations (the fueled loop with that
bound returns), and the outcome is a chunk or end of stream. -/
theorem C7_lookup_terminates (stream : List Nat) (offset : Nat) :
    LookupFuel (stream.length + 1) stream offset = some (Lookup stream offset) ∧
    ((∃ b nxt, Lookup stream offset = .chunk b nxt) ∨
      Lookup stream offset = .eof) := by
  refine ⟨lookupFuel_eq stream (stream.length + 1) offset (by omega) (by omega), ?_⟩
  cases h : Lookup stream offset with
  | eof => exact Or.inr rfl
  | chunk b nxt => exact Or.inl ⟨b, nxt, rfl⟩

/-- Claim C8: Close always attempts to release both handles, read handle
first; a read-close failure is the error reported even though the write
handle is still closed, and otherwise the write-close result is
returned. -/
theorem C8_close_both_handles {ε : Type} (rClose wClose : Option ε) :
    (Close rClose wClose).1 = [.closeRead, .closeWrite] ∧
    (Close rClose wClose).2 = (match rClose with
      | some e => some e
      | none => wClose) := by
  cases rClose <;> simp [Close]

/-- Claim C9: every successful Lookup returns a next offset at least the
requested offset plus 10, hence strictly greater than the requested
offset. -/
theorem C9_next_offset_monotone (stream : List Nat) (offset : Nat)
    (b : List Nat) (nxt : Nat) (h : Lookup stream offset = .chunk b nxt) :
    offset + chunkMetadataSize ≤ nxt ∧ offset < nxt := by
  obtain ⟨p, hp1, hp2, hp3⟩ := lookup_success h
  have hcm : chunkMetadataSize = 10 := rfl
  omega

theorem C9_next_offset_monotone_witness :
    Lookup (chunkBytes [5]) 0 = .chunk [5] 11 ∧
    (0 + chunkMetadataSize ≤ 11 ∧ 0 < 11) := by
  have h : Lookup (chunkBytes [5]) 0 = .chunk [5] 11 := lookup_eval (by decide)
  exact ⟨h, C9_next_offset_monotone _ 0 [5] 11 h⟩

/-- Claim C10: every payload returned by a successful Lookup has length at
most 1024, whatever bytes the underlying stream holds. -/
theorem C10_payload_bounded (stream : List Nat) (offset : Nat)
    (b : List Nat) (nxt : Nat) (h : Lookup stream offset = .chunk b nxt) :
    b.length ≤ maxChunkSize := by
  obtain ⟨p, hp1, hp2, hp3⟩ := lookup_success h
  exact hp2

theorem C10_payload_bounded_witness :
    Lookup (chunkBytes [8, 9]) 0 = .chunk [8, 9] 12 ∧
    ([8, 9] : List Nat).length ≤ maxChunkSize := by
  have h : Lookup (chunkBytes [8, 9]) 0 = .chunk [8, 9] 12 := lookup_eval (by decide)
  exact ⟨h, C10_payload_bounded _ 0 [8, 9] 12 h⟩

end Aof
